import Mathlib

/-! # Verification of the git-dit issue-tracker core

Shallow embedding of the git-dit core (trailer parser, message body analyser,
ref-namespace codec, issue handle operations, reference collector, remote
priorization) together with theorems settling the specification claims.

Strings are modelled as `List Char` where character-level parsing matters.
Commit ids (`git2::Oid`) are modelled as `Nat` in the repository model and as
normalised hex strings in the ref-name codec.
-/

namespace GitDit

/-! ## Character and string utilities -/

/-- ASCII alphanumeric or hyphen: the character class `[[:alnum:]-]` of the
trailer regex in `message/trailer.rs`. -/
def isKeyChar (c : Char) : Bool :=
  c.isAlpha || c.isDigit || c = '-'

/-- Whitespace as recognised by Rust's `str::trim` / `trim_right` for the
ASCII range (space, tab, newline, vertical tab, form feed, carriage return). -/
def isWsChar (c : Char) : Bool :=
  c = ' ' || c = '\t' || c = '\n' || c = Char.ofNat 11 || c = Char.ofNat 12 || c = '\r'

/-- Model of `str::trim_left` on a character list. -/
def trimLeftL (l : List Char) : List Char :=
  l.dropWhile isWsChar

/-- Model of `str::trim_right` on a character list. -/
def trimRightL (l : List Char) : List Char :=
  (l.reverse.dropWhile isWsChar).reverse

/-- Model of `str::trim` (both ends) on a character list. -/
def trimBothL (l : List Char) : List Char :=
  trimRightL (trimLeftL l)

/-- ASCII decimal digit test. -/
def isDigitChar (c : Char) : Bool :=
  c.isDigit

/-! ## `i64` parsing and rendering

`TrailerValue::from_slice` relies on `i64::from_str`: an optional `+`/`-`
sign, one or more ASCII digits and nothing else, with the value required to
fit into a signed 64-bit integer. -/

/-- Numeric value of a digit list (most significant first). -/
def digitsVal (ds : List Char) : Nat :=
  ds.foldl (fun a c => a * 10 + (c.toNat - 48)) 0

/-- Model of `i64::from_str`. -/
def parseI64 (cs : List Char) : Option Int :=
  match cs with
  | [] => none
  | c :: rest =>
    let (neg, digits) :=
      if c = '-' then (true, rest)
      else if c = '+' then (false, rest)
      else (false, cs)
    if digits ≠ [] ∧ digits.all isDigitChar then
      let v : Int := if neg then -(digitsVal digits : Int) else (digitsVal digits : Int)
      if -(2 ^ 63) ≤ v ∧ v < 2 ^ 63 then some v else none
    else none

/-- Decimal rendering of an `i64` (Rust `i64: Display`). -/
def intRepr (i : Int) : List Char :=
  if i < 0 then '-' :: Nat.toDigits 10 i.natAbs else Nat.toDigits 10 i.natAbs

/-! ## Trailers (`message/trailer.rs`) -/

/-- Values of trailers, `TrailerValue`: either an integer or a plain string. -/
inductive TrailerValue
  | int (i : Int)
  | str (s : List Char)
deriving DecidableEq, Repr

/-- Model of `TrailerValue::from_slice`: try `i64` first, fall back to a string. -/
def TrailerValue.from_slice (slice : List Char) : TrailerValue :=
  match parseI64 slice with
  | some i => .int i
  | none => .str slice

/-- Model of `TrailerValue::append`: fold a continuation slice into a value; the result
is always a string, an integer being rendered in decimal first. -/
def TrailerValue.append (v : TrailerValue) (slice : List Char) : TrailerValue :=
  .str ((match v with
         | .int i => intRepr i
         | .str s => s) ++ slice)

/-- Textual rendering of a value (`TrailerValue: Display`). -/
def TrailerValue.render : TrailerValue → List Char
  | .int i => intRepr i
  | .str s => s

/-- A trailer: key/value pair. -/
structure Trailer where
  key : List Char
  value : TrailerValue
deriving DecidableEq, Repr

/-- Model of `Trailer::new`: build from a key and the textual value. -/
def Trailer.new (key value : List Char) : Trailer :=
  ⟨key, TrailerValue.from_slice value⟩

/-- Rendering of a trailer, `Trailer: Display`, i.e. the formatting string for key colon space value. -/
def Trailer.display (t : Trailer) : List Char :=
  t.key ++ ':' :: ' ' :: t.value.render

/-- Model of `Trailer::from_str`: the regex match against one or more `[[:alnum:]-]`
characters, a `:` or `=` delimiter, and the (newline-free) remainder, whose
whitespace-trimmed text becomes the value.  On failure the original line is
carried in the error. -/
def Trailer.from_str (s : List Char) : Except (List Char) Trailer :=
  let key := s.takeWhile isKeyChar
  match s.drop (s.takeWhile isKeyChar).length with
  | d :: v =>
    if key ≠ [] ∧ (d = ':' ∨ d = '=') ∧ ¬ v.contains '\n' then
      .ok (Trailer.new key (trimBothL v))
    else
      .error s
  | [] => .error s

/-! ## Line blocks (`message/block.rs`)

`Blocks` groups the lines of a message body into paragraphs (`Block::Text`)
and blocks of trailers (`Block::Trailer`), separated by blank lines.  A block
is tentatively a trailer block and downgrades to text the moment a
non-trailer line is seen. -/

/-- A block of lines: a paragraph or a run of trailers. -/
inductive Block
  | text (lines : List (List Char))
  | trailer (trailers : List Trailer)
deriving DecidableEq, Repr

/-- Fold a continuation line into the last collected trailer
(`trailers.last_mut()` followed by `value.append`). -/
def appendToLast (ts : List Trailer) (slice : List Char) : List Trailer :=
  match ts.getLast? with
  | none => ts
  | some t => ts.dropLast ++ [{ t with value := t.value.append slice }]

/-- The body of the loop in `Blocks::next`: consume lines until a blank line
ends the current block (leading blank lines are skipped), accumulating the
trimmed lines, the collected trailers and the `is_trailer` flag.  Returns the
accumulators together with the unconsumed remainder of the input. -/
def blocksStep :
    List (List Char) → List (List Char) → List Trailer → Bool →
    (List (List Char) × List Trailer × Bool × List (List Char))
  | [], lines, trailers, is_trailer => (lines, trailers, is_trailer, [])
  | l :: rest, lines, trailers, is_trailer =>
    let trimmed := trimRightL l
    if trimmed = [] then
      if lines = [] then
        blocksStep rest lines trailers is_trailer
      else
        (lines, trailers, is_trailer, rest)
    else
      let lines' := lines ++ [trimmed]
      if is_trailer then
        if trimmed.head? = some ' ' then
          match trailers with
          | [] => blocksStep rest lines' trailers false
          | _ :: _ => blocksStep rest lines' (appendToLast trailers trimmed) true
        else
          match Trailer.from_str trimmed with
          | .ok t => blocksStep rest lines' (trailers ++ [t]) true
          | .error _ => blocksStep rest lines' trailers false
      else
        blocksStep rest lines' trailers is_trailer

/-- One step of the `Blocks` iterator: the next block, if any, and the
remaining input. -/
def blocksNext (input : List (List Char)) :
    Option (Block × List (List Char)) :=
  match blocksStep input [] [] true with
  | (lines, trailers, is_trailer, rest) =>
    if lines = [] then none
    else some (if is_trailer then Block.trailer trailers else Block.text lines, rest)

/-- Drain the `Blocks` iterator, with fuel (one unit per produced block is
ample since every produced block consumes at least one input line). -/
def blocksAux : Nat → List (List Char) → List Block
  | 0, _ => []
  | fuel + 1, input =>
    match blocksNext input with
    | none => []
    | some (b, rest) => b :: blocksAux fuel rest

/-- All blocks of a sequence of lines (`Blocks` iterator, drained). -/
def blocksOf (input : List (List Char)) : List Block :=
  blocksAux (input.length + 1) input

/-- The `block::Trailers` iterator, drained: all trailers of all trailer
blocks, in document order. -/
def trailersOfLines (input : List (List Char)) : List Trailer :=
  (blocksOf input).flatMap fun b =>
    match b with
    | .trailer ts => ts
    | .text _ => []

/-! ## Commit message views (`message/mod.rs`)

`Message::message_lines` splits the commit message into lines (Rust
`str::lines`); `body_lines` drops the first two of them; `trailers` extracts
trailers from the body lines. -/

/-- Split at a separator character, keeping empty segments. -/
def splitOnChar (sep : Char) : List Char → List (List Char)
  | [] => [[]]
  | c :: rest =>
    if c = sep then [] :: splitOnChar sep rest
    else
      match splitOnChar sep rest with
      | [] => [[c]]
      | seg :: segs => (c :: seg) :: segs

/-- Split at `'\n'`, keeping empty segments. -/
def splitNl (l : List Char) : List (List Char) :=
  splitOnChar '\n' l

/-- Strip one trailing carriage return (the `\r` of a `\r\n` line ending). -/
def stripCr (l : List Char) : List Char :=
  match l.getLast? with
  | some '\r' => l.dropLast
  | _ => l

/-- Model of Rust `str::lines`: split at `\n` or `\r\n`; the final line
ending is optional and produces no empty final line. -/
def rustLines (s : List Char) : List (List Char) :=
  match s with
  | [] => []
  | _ =>
    let parts := splitNl s
    parts.dropLast.map stripCr ++
      (match parts.getLast? with
       | some [] => []
       | some l => [l]
       | none => [])

/-- Model of `Message::body_lines`: the message's lines with the first two skipped. -/
def bodyLinesOf (msgLines : List (List Char)) : List (List Char) :=
  msgLines.drop 2

/-- Model of `Message::trailers` on pre-split message lines. -/
def trailersOfMessageLines (msgLines : List (List Char)) : List Trailer :=
  trailersOfLines (bodyLinesOf msgLines)

/-- Model of `Message::trailers` on the raw commit message text. -/
def trailersOfMessage (msg : List Char) : List Trailer :=
  trailersOfMessageLines (rustLines msg)

/-! ## Ref-name codec (`issue.rs`, `IssueRefType`) -/

/-- Hexadecimal digit (either case), as accepted by `Oid::from_str`. -/
def isHexChar (c : Char) : Bool :=
  c.isDigit || ('a' ≤ c && c ≤ 'f') || ('A' ≤ c && c ≤ 'F')

/-- The kind of an issue reference. -/
inductive IssueRefType
  | any
  | head
  | leaf
deriving DecidableEq, Repr

/-- Model of `IssueRefType::id_from_str`: an `Oid` from a full 40-character hex
representation (the `Oid` is modelled as the normalised lower-case string). -/
def id_from_str (s : List Char) : Option (List Char) :=
  if s.length = 40 ∧ s.all isHexChar then some (s.map Char.toLower) else none

/-- Shared tail of both branches of `of_ref`: after the denominating end of
the name is consumed, the next segment up must be a valid issue id and the
remaining segments must contain a literal `dit`. -/
def of_ref_finish (t : IssueRefType) (parts : List (List Char)) :
    Option (List Char × IssueRefType) :=
  match parts with
  | idStr :: remaining =>
    match id_from_str idStr with
    | some id => if remaining.contains "dit".data then some (id, t) else none
    | none => none
  | [] => none

/-- Model of `IssueRefType::of_ref` on the `/`-separated segments, consumed
from the right (`refname.rsplit` yields the reversed segment list). -/
def of_ref_parts (segs : List (List Char)) : Option (List Char × IssueRefType) :=
  match segs.reverse with
  | [] => none
  | last :: rest =>
    if last = "head".data then
      of_ref_finish .head rest
    else
      match id_from_str last with
      | some _ =>
        match rest with
        | leavesSeg :: rest2 =>
          if leavesSeg = "leaves".data then of_ref_finish .leaf rest2 else none
        | _ => none
      | none => none

/-- Model of `IssueRefType::of_ref`: classify a ref name. -/
def of_ref (refname : List Char) : Option (List Char × IssueRefType) :=
  of_ref_parts (splitOnChar '/' refname)

/-! ## Repository model

Commits and refs of the host VCS.  A commit is an id together with its
ordered parent ids; a ref maps a structured name to a target commit id.
`git2::Repository::reference(name, id, force, log)` creates the ref,
failing when it already exists unless `force` is set. -/

/-- Structured dit ref names: `refs/dit/<issue>/head`,
`refs/dit/<issue>/leaves/<msg>` and their copies under
`refs/remotes/<remote>/...`. -/
inductive RefName
  | head (issue : Nat)
  | leaf (issue : Nat) (msg : Nat)
  | remoteHead (remote : String) (issue : Nat)
  | remoteLeaf (remote : String) (issue : Nat) (msg : Nat)
deriving DecidableEq, Repr

/-- Error kinds of the core (the ones exercised by the claims). -/
inductive ErrKind
  | cannotSetReference (name : RefName)
  | cannotGetCommit
  | cannotCreateMessage
deriving DecidableEq, Repr

deriving instance DecidableEq for Except

/-- Association-list lookup (first match wins, as in a ref store / object
store keyed by unique names). -/
def assocLookup {α β : Type} [DecidableEq α] : List (α × β) → α → Option β
  | [], _ => none
  | (a, b) :: rest, key => if key = a then some b else assocLookup rest key

/-- A repository: an object store of commits and a ref store. -/
structure Repo where
  commits : List (Nat × List Nat)
  refs : List (RefName × Nat)
deriving DecidableEq, Repr

/-- Parent ids of a commit (empty for an unknown id). -/
def Repo.parentsOf (r : Repo) (c : Nat) : List Nat :=
  (assocLookup r.commits c).getD []

/-- Model of `git2::Repository::reference`: write a single ref.  Without `force` the
write fails if the ref already exists, whatever its current target. -/
def referenceWrite (repo : Repo) (name : RefName) (target : Nat) (force : Bool) :
    Except ErrKind Repo :=
  if force then
    .ok { repo with refs := repo.refs.filter (fun p => p.1 ≠ name) ++ [(name, target)] }
  else if (assocLookup repo.refs name).isSome then
    .error (.cannotSetReference name)
  else
    .ok { repo with refs := repo.refs ++ [(name, target)] }

/-- Model of `Issue::update_head`: write `refs/dit/<issue>/head` to `message`,
forcing exactly when `replace` is set; errors are
`CannotSetReference(refname)`. -/
def updateHead (repo : Repo) (issue message : Nat) (replace : Bool) :
    Except ErrKind Repo :=
  referenceWrite repo (RefName.head issue) message replace

/-- Model of `Issue::add_leaf`: write `refs/dit/<issue>/leaves/<message>` non-forcing;
errors are `CannotSetReference(refname)`. -/
def addLeaf (repo : Repo) (issue message : Nat) : Except ErrKind Repo :=
  referenceWrite repo (RefName.leaf issue message) message false

/-- Model of `git2::Repository::commit` with no ref to update: write the commit
object.  The id is the content address of the new commit, supplied here as
`newId`; writing an already-present object is a no-op. -/
def commitObj (repo : Repo) (newId : Nat) (parents : List Nat) : Repo :=
  if (assocLookup repo.commits newId).isSome then repo
  else { repo with commits := repo.commits ++ [(newId, parents)] }

/-- Model of `Issue::add_message`: create the commit, then create the matching leaf
ref; returns the new state and the new message's id. -/
def addMessage (repo : Repo) (issue : Nat) (newId : Nat) (parents : List Nat) :
    Except ErrKind (Repo × Nat) :=
  let repo' := commitObj repo newId parents
  (addLeaf repo' issue newId).map (fun r => (r, newId))

/-- Model of `Issue::local_refs(Leaf)`: the local leaf refs of an issue, in ref-store
order. -/
def localLeaves (repo : Repo) (issue : Nat) : List (RefName × Nat) :=
  repo.refs.filter fun p =>
    match p.1 with
    | .leaf i _ => i = issue
    | _ => false

/-- Targets of `refs/remotes/*/dit/<issue>/head`. -/
def remoteHeadTargets (repo : Repo) (issue : Nat) : List Nat :=
  repo.refs.filterMap fun p =>
    match p.1 with
    | .remoteHead _ i => if i = issue then some p.2 else none
    | _ => none

/-- Targets of `refs/remotes/*/dit/<issue>/**` (remote heads and leaves). -/
def remoteAnyTargets (repo : Repo) (issue : Nat) : List Nat :=
  repo.refs.filterMap fun p =>
    match p.1 with
    | .remoteHead _ i => if i = issue then some p.2 else none
    | .remoteLeaf _ i _ => if i = issue then some p.2 else none
    | _ => none

/-- Targets of all refs matching the glob `**/dit/<issue>/**`. -/
def issueRefTargets (repo : Repo) (issue : Nat) : List Nat :=
  repo.refs.filterMap fun p =>
    match p.1 with
    | .head i => if i = issue then some p.2 else none
    | .leaf i _ => if i = issue then some p.2 else none
    | .remoteHead _ i => if i = issue then some p.2 else none
    | .remoteLeaf _ i _ => if i = issue then some p.2 else none

/-! ## Revision walks

A plain revwalk emits every commit reachable from its pushed seeds (minus
the ones reachable from hidden seeds); with `simplify_first_parent` only
first-parent edges are followed; `SORT_TOPOLOGICAL` emits children before
their parents. -/

/-- One closure step of all-parents reachability. -/
def reachStep (repo : Repo) (s : List Nat) : List Nat :=
  (s ++ s.flatMap repo.parentsOf).dedup

/-- Iterate the closure step. -/
def reachAux (repo : Repo) : Nat → List Nat → List Nat
  | 0, s => s
  | n + 1, s => reachAux repo n (reachStep repo s)

/-- All commits reachable from the seeds (the seeds included); the iteration
count suffices because every newly reached id is a stored commit's parent. -/
def reachableFrom (repo : Repo) (seeds : List Nat) : List Nat :=
  reachAux repo (repo.commits.length + 1) seeds

/-- First parent of a commit, if any. -/
def firstParentOf (repo : Repo) (c : Nat) : Option Nat :=
  (repo.parentsOf c).head?

/-- The first-parent chain starting at a commit, with fuel. -/
def fpChainAux (repo : Repo) : Nat → Nat → List Nat
  | 0, _ => []
  | fuel + 1, c =>
    c :: (match firstParentOf repo c with
          | some p => fpChainAux repo fuel p
          | none => [])

/-- The first-parent chain starting at a commit. -/
def fpChain (repo : Repo) (c : Nat) : List Nat :=
  fpChainAux repo (repo.commits.length + 2) c

/-- Length of the first-parent chain below a commit: a commit is deeper than
every commit its first-parent chain passes through. -/
def fpDepth (repo : Repo) (c : Nat) : Nat :=
  (fpChain repo c).length

/-- Commits reachable along first parents from the seeds. -/
def fpReachable (repo : Repo) (seeds : List Nat) : List Nat :=
  (seeds.flatMap (fpChain repo)).dedup

/-- Insert into a list sorted by decreasing first-parent depth. -/
def insertByDepth (repo : Repo) (c : Nat) : List Nat → List Nat
  | [] => [c]
  | x :: xs =>
    if fpDepth repo x ≤ fpDepth repo c then c :: x :: xs
    else x :: insertByDepth repo c xs

/-- Topological (children-first) ordering of a set of commits under
first-parent simplification: sort by decreasing first-parent depth. -/
def sortByDepthDesc (repo : Repo) (l : List Nat) : List Nat :=
  l.foldr (insertByDepth repo) []

/-- Model of `Issue::messages`, drained: seed a revwalk with every ref matching
`**/dit/<issue>/**`, hide each parent of the initial message, simplify to
first parents and sort topologically.  Fails with `CannotGetCommit` when the
initial message does not exist. -/
def messagesList (repo : Repo) (issue : Nat) : Except ErrKind (List Nat) :=
  match assocLookup repo.commits issue with
  | none => .error .cannotGetCommit
  | some initialParents =>
    let hidden := reachableFrom repo initialParents
    let emitted := (fpReachable repo (issueRefTargets repo issue)).filter
      fun c => c ∉ hidden
    .ok (sortByDepthDesc repo emitted)

/-! ## Reference collector (`gc.rs`) -/

/-- Policy `ReferenceCollectionSpec` for collecting head refs. -/
inductive ReferenceCollectionSpec
  | never
  | backedByRemoteHead
deriving DecidableEq, Repr

/-- Model of `CollectableRefs::into_refs`.  Per issue: the local head is assessed
against a walk seeded with the remote heads (only under
`BackedByRemoteHead`; under `Never` the walk has no seeds and emits
nothing).  All local leaves are assessed against one shared walk seeded with
every local head target, the parents of every local leaf target and — when
remote refs are considered — every remote ref target of the issues. -/
def collectableRefs (repo : Repo) (issues : List Nat)
    (considerRemote : Bool) (collectHeads : ReferenceCollectionSpec) :
    List RefName :=
  let headPart := issues.filterMap fun i =>
    match assocLookup repo.refs (RefName.head i) with
    | none => none
    | some h =>
      let headHistorySeeds : List Nat :=
        match collectHeads with
        | .never => []
        | .backedByRemoteHead => remoteHeadTargets repo i
      if h ∈ reachableFrom repo headHistorySeeds then some (RefName.head i) else none
  let leafSeeds := issues.flatMap fun i =>
    (match assocLookup repo.refs (RefName.head i) with
     | some h => [h]
     | none => []) ++
    (localLeaves repo i).flatMap (fun l => repo.parentsOf l.2) ++
    (if considerRemote then remoteAnyTargets repo i else [])
  let watched := issues.flatMap (localLeaves repo)
  let reach := reachableFrom repo leafSeeds
  headPart ++ (watched.filter (fun l => l.2 ∈ reach)).map (fun l => l.1)

/-! ## Remote priorization (`gitext/reference.rs`) -/

/-- A reference as seen by the CLI: a full ref name. -/
structure CliRef where
  name : List Char
deriving DecidableEq, Repr

/-- Model of `ReferrenceExt::remote`: the remote name of a `refs/remotes/<remote>/…`
ref, `None` otherwise (the first two `/`-separated segments must be `refs`
and `remotes`; the third, if any, is the remote's name). -/
def CliRef.remote (r : CliRef) : Option (List Char) :=
  match splitOnChar '/' r.name with
  | seg0 :: seg1 :: rname :: _ =>
    if seg0 = "refs".data ∧ seg1 = "remotes".data then some rname else none
  | _ => none

/-- Remote priority lists, `RemotePriorization`: an ordered list of remote names; the entry `*`
matches any remote. -/
structure RemotePriorization where
  list : List (List Char)
deriving DecidableEq, Repr

/-- Build from a comma-separated list. -/
def RemotePriorization.from_str (s : List Char) : RemotePriorization :=
  ⟨splitOnChar ',' s⟩

/-- Model of `priority_for_remote`: one plus the first position whose entry is the
remote's name or `*`; `None` if absent. -/
def RemotePriorization.priority_for_remote
    (p : RemotePriorization) (remote : List Char) : Option Nat :=
  (p.list.findIdx? (fun item => item = remote || item = "*".data)).map (· + 1)

/-- Model of `priority_for_ref`: a local ref has priority 0, a remote ref the priority
of its remote. -/
def RemotePriorization.priority_for_ref
    (p : RemotePriorization) (r : CliRef) : Option Nat :=
  match r.remote with
  | some remote => p.priority_for_remote remote
  | none => some 0

/-- One step of `min_by_key`: keep the running minimum, a strictly smaller
key replacing it (so the first of equal minima wins). -/
def selectMinStep {α : Type} (acc : Option (α × Nat)) (x : α × Nat) :
    Option (α × Nat) :=
  match acc with
  | none => some x
  | some y => if x.2 < y.2 then some x else some y

/-- Model of `ReferrencesExt::select_ref`: keep the refs with a defined priority and
take a minimum (`min_by_key`, which returns the first of equal minima). -/
def select_ref (refs : List CliRef) (p : RemotePriorization) : Option CliRef :=
  let prioritized := refs.filterMap fun r =>
    (p.priority_for_ref r).map (fun q => (r, q))
  (prioritized.foldl selectMinStep none).map (·.1)

/-! ## Properties and scenarios

Spec-side predicates and the concrete repositories of the specification's
scenarios, against which the claims are settled. -/

/-- Modelled from the spec: the per-block trailer condition.  Scanning the
block's lines in order, every line must be a valid trailer, or an indented
continuation line at a point where a (valid, unindented) trailer has been
collected earlier in the block; `hasTrailer` records the latter.  A block
violating this condition downgrades to text. -/
def trailerBlockScan (hasTrailer : Bool) : List (List Char) → Bool
  | [] => true
  | l :: rest =>
    if (trimRightL l).head? = some ' ' then
      hasTrailer && trailerBlockScan hasTrailer rest
    else
      (Trailer.from_str (trimRightL l)).isOk && trailerBlockScan true rest

/-- Modelled from the spec: moving a ref from its current target `oldTarget`
to `newTarget` is a fast-forward update when `oldTarget` is an ancestor of
(or equal to) `newTarget`. -/
def isFastForwardUpdate (repo : Repo) (oldTarget newTarget : Nat) : Bool :=
  oldTarget ∈ reachableFrom repo [newTarget]

/-- Scenario S6 of the spec, parametrised over the commit ids: an issue with
initial message `i`, replies `r1` (first parent `i`) and `r2` (first parent
`r1`), leaf refs for both replies, and the local head at `r2`. -/
def s6RepoOf (i r1 r2 : Nat) : Repo :=
  ⟨[(i, []), (r1, [i]), (r2, [r1])],
   [(.head i, r2), (.leaf i r1, r1), (.leaf i r2, r2)]⟩

/-- Scenario S6 with concrete ids `0`, `1`, `2`. -/
def s6Repo : Repo :=
  s6RepoOf 0 1 2

/-- Scenario S2 of the spec: issue A is `0` (initial message `0`, head at
`0`); issue B is `1` (initial message `1` whose first parent is `0`, head at
`1`) with reply `2` (first parent `1`, leaf ref). -/
def s2Repo : Repo :=
  ⟨[(0, []), (1, [0]), (2, [1])],
   [(.head 0, 0), (.head 1, 1), (.leaf 1 2, 2)]⟩

/-- Head-update scenario: issue `0` with its head ref at the initial message
`0`, and a reply `1` whose first parent is `0` (a fast-forward candidate). -/
def c3Repo : Repo :=
  ⟨[(0, []), (1, [0])], [(.head 0, 0)]⟩

/-- The body of scenario S5 of the spec, as a sequence of lines. -/
def s5Body : List (List Char) :=
  ["Foo-bar: bar".data,
   "".data,
   "Space: the final frontier.".data,
   "These are the voyages...".data,
   "".data,
   "Signed-off-by: Spock".data,
   "Multi-line-trailer: multi".data,
   "  line".data,
   "  content".data]

/-- An issue with only its initial message `0` and the head ref at `0`,
before a reply is added. -/
def c9Repo : Repo :=
  ⟨[(0, [])], [(.head 0, 0)]⟩

/-- The repository `c9Repo` after `add_message` created reply `1` (first
parent `0`) and its leaf ref. -/
def c9RepoAfter : Repo :=
  ⟨[(0, []), (1, [0])], [(.head 0, 0), (.leaf 0 1, 1)]⟩

/-! ## Association-list lemmas -/

theorem assocLookup_append_not_found {α β : Type} [DecidableEq α]
    (l : List (α × β)) (k : α) (v : β) (h : assocLookup l k = none) :
    assocLookup (l ++ [(k, v)]) k = some v := by
  induction l with
  | nil => simp [assocLookup]
  | cons p rest ih =>
    rw [assocLookup] at h
    rw [List.cons_append, assocLookup]
    by_cases hk : k = p.1
    · simp [hk] at h
    · simp only [hk, if_false] at h ⊢
      exact ih h

theorem assocLookup_append_ne {α β : Type} [DecidableEq α]
    (l : List (α × β)) (k : α) (v : β) (k' : α) (h : k' ≠ k) :
    assocLookup (l ++ [(k, v)]) k' = assocLookup l k' := by
  induction l with
  | nil => simp [assocLookup, h]
  | cons p rest ih =>
    rw [List.cons_append, assocLookup, assocLookup]
    by_cases hk : k' = p.1
    · simp [hk]
    · simp only [hk, if_false]
      exact ih

theorem assocLookup_filter_ne {α β : Type} [DecidableEq α]
    (l : List (α × β)) (k : α) :
    assocLookup (l.filter (fun p => p.1 ≠ k)) k = none := by
  induction l with
  | nil => simp [assocLookup]
  | cons p rest ih =>
    by_cases hk : p.1 = k
    · simpa [List.filter, hk] using ih
    · simpa [List.filter, hk, assocLookup, Ne.symm hk] using ih

/-- Field computation: creating a commit object does not touch the refs. -/
theorem commitObj_refs (repo : Repo) (newId : Nat) (parents : List Nat) :
    (commitObj repo newId parents).refs = repo.refs := by
  unfold commitObj
  split <;> rfl

theorem mem_reachAux_of_mem (repo : Repo) :
    ∀ (n : Nat) (s : List Nat) (a : Nat), a ∈ s → a ∈ reachAux repo n s := by
  intro n
  induction n with
  | zero => exact fun s a h => h
  | succ k ih =>
    intro s a h
    rw [reachAux]
    refine ih _ _ ?_
    rw [reachStep]
    rw [List.mem_dedup]
    exact List.mem_append_left _ h

/-! ## C1 — the reference collector on scenario S6 -/

/-- C1, counterexample.  In scenario S6 (initial `0`, leaf refs on replies
`1` and `2`, head at `2`), the collector with default policies reports the
leaf ref targeting `2` — contrary to the claim, which says only the leaf
targeting `1` is reported.  The head's target `2` is pushed into the walk,
so the walk emits `2` and the leaf watched there is yielded (the
repository's own test of `CollectableRefs` expects exactly this for a leaf
whose target equals the head's target). -/
theorem c1_counterexample :
    RefName.leaf 0 2 ∈ collectableRefs s6Repo [0] false ReferenceCollectionSpec.never := by
  decide

/-- Empty seeds reach nothing. -/
theorem reachAux_nil_seeds (repo : Repo) : ∀ n, reachAux repo n [] = [] := by
  intro n
  induction n with
  | zero => rfl
  | succ k ih =>
    rw [reachAux, show reachStep repo [] = [] from by simp [reachStep]]
    exact ih

/-- C1, amended: for every issue of the S6 shape (distinct ids `i`, `r1`,
`r2`), the collector with default policies reports exactly the two leaf
refs: the one targeting `r1` (covered by the other leaf, whose parent `r1`
seeds the walk) and the one targeting `r2` (covered by the head ref, whose
target `r2` is pushed into the walk); the head ref is not reported and no
reported ref refers to the initial message `i`. -/
theorem c1_gc_scenario_amended :
    ∀ (i r1 r2 : Nat), r1 ≠ i → r2 ≠ i → r2 ≠ r1 →
      collectableRefs (s6RepoOf i r1 r2) [i] false
          ReferenceCollectionSpec.never =
        [RefName.leaf i r1, RefName.leaf i r2] := by
  intro i r1 r2 h1 h2 h3
  have hhead : assocLookup (s6RepoOf i r1 r2).refs (RefName.head i) = some r2 := by
    simp [s6RepoOf, assocLookup]
  have hleaves : localLeaves (s6RepoOf i r1 r2) i =
      [(RefName.leaf i r1, r1), (RefName.leaf i r2, r2)] := by
    simp [localLeaves, s6RepoOf, List.filter]
  have hpar1 : (s6RepoOf i r1 r2).parentsOf r1 = [i] := by
    simp [Repo.parentsOf, s6RepoOf, assocLookup, h1]
  have hpar2 : (s6RepoOf i r1 r2).parentsOf r2 = [r1] := by
    simp [Repo.parentsOf, s6RepoOf, assocLookup, h2, h3]
  have hm1 : r1 ∈ reachableFrom (s6RepoOf i r1 r2) [r2, i, r1] :=
    mem_reachAux_of_mem _ _ _ _ (by simp)
  have hm2 : r2 ∈ reachableFrom (s6RepoOf i r1 r2) [r2, i, r1] :=
    mem_reachAux_of_mem _ _ _ _ (by simp)
  have hnil : reachableFrom (s6RepoOf i r1 r2) [] = [] :=
    reachAux_nil_seeds _ _
  simp [collectableRefs, hhead, hleaves, hpar1, hpar2, hnil, hm1, hm2]

/-- Witness for C1's amended theorem at the concrete ids `0`, `1`, `2`. -/
theorem c1_gc_scenario_amended_witness :
    collectableRefs (s6RepoOf 0 1 2) [0] false ReferenceCollectionSpec.never =
      [RefName.leaf 0 1, RefName.leaf 0 2] :=
  c1_gc_scenario_amended 0 1 2 (by decide) (by decide) (by decide)

/-! ## C3 — `update_head` -/

/-- C3, counterexample.  The head ref of `c3Repo` is at `0` and `1` is a
child of `0`, so moving the head to `1` is a fast-forward update; the claim
says `update_head(1, false)` fails exactly when the move is not a
fast-forward, yet the call fails: the underlying non-forcing ref write
refuses to touch any existing ref, whatever the direction of the move. -/
theorem c3_counterexample :
    assocLookup c3Repo.refs (RefName.head 0) = some 0 ∧
    isFastForwardUpdate c3Repo 0 1 = true ∧
    updateHead c3Repo 0 1 false =
      Except.error (ErrKind.cannotSetReference (RefName.head 0)) := by
  decide

/-- C3, amended: `update_head(m, false)` writes the head ref and fails
exactly when the head ref already exists (whether or not the move would be a
fast-forward), with error kind `CannotSetReference(name)`; `update_head(m,
true)` always rewrites the head ref to `m`. -/
theorem c3_update_head_amended :
    ∀ (repo : Repo) (issue m : Nat),
      ((assocLookup repo.refs (RefName.head issue)).isSome = true →
        updateHead repo issue m false =
          Except.error (ErrKind.cannotSetReference (RefName.head issue))) ∧
      (assocLookup repo.refs (RefName.head issue) = none →
        ∃ r, updateHead repo issue m false = Except.ok r ∧
          assocLookup r.refs (RefName.head issue) = some m) ∧
      (∃ r, updateHead repo issue m true = Except.ok r ∧
        assocLookup r.refs (RefName.head issue) = some m) := by
  intro repo issue m
  refine ⟨fun h => ?_, fun h => ?_, ?_⟩
  · simp [updateHead, referenceWrite, h]
  · refine ⟨{ repo with refs := repo.refs ++ [(RefName.head issue, m)] }, ?_, ?_⟩
    · simp [updateHead, referenceWrite, h]
    · exact assocLookup_append_not_found _ _ _ h
  · refine ⟨{ repo with
        refs := repo.refs.filter (fun p => p.1 ≠ RefName.head issue) ++
          [(RefName.head issue, m)] }, ?_, ?_⟩
    · simp [updateHead, referenceWrite]
    · exact assocLookup_append_not_found _ _ _ (assocLookup_filter_ne _ _)

/-- Witness for C3's amended theorem: on `c3Repo`, whose head ref exists,
the non-forcing update fails with `CannotSetReference`. -/
theorem c3_update_head_amended_witness :
    updateHead c3Repo 0 1 false =
      Except.error (ErrKind.cannotSetReference (RefName.head 0)) :=
  (c3_update_head_amended c3Repo 0 1).1 (by decide)

/-! ## C9 — `add_message` writes exactly the leaf ref -/

/-- C9: a successful `add_message` returns the new commit `m`, after which a
leaf ref for `m` exists (and is listed by `local_refs(Leaf)` with target
`m`), while every other ref — in particular the issue's local head ref — is
exactly as before the call. -/
theorem c9_add_message_frame :
    ∀ (repo : Repo) (issue newId : Nat) (parents : List Nat)
      (repo' : Repo) (m : Nat),
      addMessage repo issue newId parents = Except.ok (repo', m) →
        m = newId ∧
        assocLookup repo'.refs (RefName.leaf issue m) = some m ∧
        (localLeaves repo' issue).any (fun l => l.2 = m) = true ∧
        (∀ name, name ≠ RefName.leaf issue m →
          assocLookup repo'.refs name = assocLookup repo.refs name) ∧
        assocLookup repo'.refs (RefName.head issue) =
          assocLookup repo.refs (RefName.head issue) := by
  intro repo issue newId parents repo' m h
  rw [addMessage, addLeaf, referenceWrite] at h
  cases hl : assocLookup (commitObj repo newId parents).refs
      (RefName.leaf issue newId) with
  | some v =>
    rw [hl] at h
    simp [Except.map] at h
  | none =>
    rw [hl] at h
    simp only [Option.isSome_none, Bool.false_eq_true, if_false, Except.map,
      Except.ok.injEq, Prod.mk.injEq] at h
    obtain ⟨hrepo, hm⟩ := h
    rw [commitObj_refs] at hl
    have hrefs : repo'.refs = repo.refs ++ [(RefName.leaf issue newId, newId)] := by
      rw [← hrepo, commitObj_refs]
    subst hm
    refine ⟨rfl, ?_, ?_, ?_, ?_⟩
    · rw [hrefs]
      exact assocLookup_append_not_found _ _ _ hl
    · rw [localLeaves, hrefs, List.filter_append, List.any_append]
      simp
    · intro name hne
      rw [hrefs]
      exact assocLookup_append_ne _ _ _ _ hne
    · rw [hrefs]
      exact assocLookup_append_ne _ _ _ _ (fun hc => RefName.noConfusion hc)

/-- Witness for C9: adding reply `1` to the one-message issue of `c9Repo`
leaves the head ref untouched. -/
theorem c9_add_message_frame_witness :
    assocLookup c9RepoAfter.refs (RefName.head 0) =
      assocLookup c9Repo.refs (RefName.head 0) :=
  (c9_add_message_frame c9Repo 0 1 [0] c9RepoAfter 1 (by decide)).2.2.2.2

/-! ## C10 — body views skip the first two message lines -/

/-- C10: the trailer view of a commit message considers only the lines from
the third line onward — it is invariant under changing the first two lines —
and trailer-shaped first or second lines are never yielded, even when the
second line is non-blank (a malformed message). -/
theorem c10_trailers_skip_first_two_lines :
    (∀ (l1 l2 l1' l2' : List Char) (rest : List (List Char)),
      trailersOfMessageLines (l1 :: l2 :: rest) =
        trailersOfMessageLines (l1' :: l2' :: rest)) ∧
    trailersOfMessage "A: 1\nB: 2\nC: 3".data =
      [⟨"C".data, TrailerValue.int 3⟩] ∧
    (∀ t ∈ trailersOfMessage "A: 1\nB: 2\nC: 3".data,
      t.key ≠ "A".data ∧ t.key ≠ "B".data) := by
  refine ⟨fun _ _ _ _ _ => rfl, by decide, by decide⟩

/-- Witness for C10: the one trailer yielded from the malformed message
does not come from its first two (trailer-shaped) lines. -/
theorem c10_trailers_skip_first_two_lines_witness :
    (⟨"C".data, TrailerValue.int 3⟩ : Trailer).key ≠ "A".data ∧
    (⟨"C".data, TrailerValue.int 3⟩ : Trailer).key ≠ "B".data :=
  c10_trailers_skip_first_two_lines.2.2 _ (by decide)

/-! ## C6 — block classification -/

theorem blocksAux_nil (n : Nat) : blocksAux n [] = [] := by
  cases n with
  | zero => rfl
  | succ k => simp [blocksAux, blocksNext, blocksStep]

theorem appendToLast_ne_nil (ts : List Trailer) (slice : List Char)
    (h : ts ≠ []) : appendToLast ts slice ≠ [] := by
  rw [appendToLast]
  cases hl : ts.getLast? with
  | none => exact h
  | some t => simp

/-- A blank-free input is consumed wholesale with the flag already down:
the lines accumulate, the collected trailers and the flag stay put. -/
theorem blocksStep_flag_false (ls : List (List Char)) :
    ∀ (lines : List (List Char)) (ts : List Trailer),
      (∀ l ∈ ls, trimRightL l ≠ []) →
      blocksStep ls lines ts false = (lines ++ ls.map trimRightL, ts, false, []) := by
  induction ls with
  | nil => intro lines ts _; simp [blocksStep]
  | cons l rest ih =>
    intro lines ts hnb
    have ht : trimRightL l ≠ [] := hnb l (List.mem_cons_self l rest)
    rw [blocksStep]
    simp only [if_neg ht, if_neg (by simp : ¬ (false = true))]
    rw [ih (lines ++ [trimRightL l]) ts (fun x hx => hnb x (List.mem_cons_of_mem l hx))]
    simp

/-- On a blank-free input with the flag still up, `blocksStep` consumes
everything, accumulates the trimmed lines, and ends with the flag up exactly
when the spec-side scan condition holds (`hasTrailer` being whether trailers
were already collected). -/
theorem blocksStep_flag_true (ls : List (List Char)) :
    ∀ (lines : List (List Char)) (ts : List Trailer),
      (∀ l ∈ ls, trimRightL l ≠ []) →
      ∃ ts', blocksStep ls lines ts true =
        (lines ++ ls.map trimRightL, ts',
         trailerBlockScan (!ts.isEmpty) ls, []) := by
  induction ls with
  | nil =>
    intro lines ts _
    exact ⟨ts, by simp [blocksStep, trailerBlockScan]⟩
  | cons l rest ih =>
    intro lines ts hnb
    have ht : trimRightL l ≠ [] := hnb l (List.mem_cons_self l rest)
    have hrest : ∀ x ∈ rest, trimRightL x ≠ [] :=
      fun x hx => hnb x (List.mem_cons_of_mem l hx)
    by_cases hsp : (trimRightL l).head? = some ' '
    · cases ts with
      | nil =>
        refine ⟨[], ?_⟩
        rw [show blocksStep (l :: rest) lines [] true =
              blocksStep rest (lines ++ [trimRightL l]) [] false from by
            simp [blocksStep, ht, hsp]]
        rw [blocksStep_flag_false rest _ [] hrest]
        simp [trailerBlockScan, hsp]
      | cons t0 ts0 =>
        obtain ⟨ts', hres⟩ :=
          ih (lines ++ [trimRightL l]) (appendToLast (t0 :: ts0) (trimRightL l)) hrest
        refine ⟨ts', ?_⟩
        rw [show blocksStep (l :: rest) lines (t0 :: ts0) true =
              blocksStep rest (lines ++ [trimRightL l])
                (appendToLast (t0 :: ts0) (trimRightL l)) true from by
            simp [blocksStep, ht, hsp]]
        rw [hres]
        have hne : (appendToLast (t0 :: ts0) (trimRightL l)).isEmpty = false := by
          have := appendToLast_ne_nil (t0 :: ts0) (trimRightL l) (by simp)
          simpa [List.isEmpty_iff] using this
        simp [hne, trailerBlockScan, hsp]
    · cases hfs : Trailer.from_str (trimRightL l) with
      | ok tr =>
        obtain ⟨ts', hres⟩ := ih (lines ++ [trimRightL l]) (ts ++ [tr]) hrest
        refine ⟨ts', ?_⟩
        rw [show blocksStep (l :: rest) lines ts true =
              blocksStep rest (lines ++ [trimRightL l]) (ts ++ [tr]) true from by
            simp [blocksStep, ht, hsp, hfs]]
        rw [hres]
        have hne2 : (ts ++ [tr]).isEmpty = false := by cases ts <;> rfl
        simp [hne2, trailerBlockScan, hsp, hfs, Except.isOk, Except.toBool]
      | error e =>
        refine ⟨ts, ?_⟩
        rw [show blocksStep (l :: rest) lines ts true =
              blocksStep rest (lines ++ [trimRightL l]) ts false from by
            simp [blocksStep, ht, hsp, hfs]]
        rw [blocksStep_flag_false rest _ ts hrest]
        simp [trailerBlockScan, hsp, hfs, Except.isOk, Except.toBool]

/-- An all-blank input is skipped entirely. -/
theorem blocksStep_all_blank (ls : List (List Char)) :
    ∀ (ts : List Trailer) (flag : Bool),
      (∀ l ∈ ls, trimRightL l = []) →
      blocksStep ls [] ts flag = ([], ts, flag, []) := by
  induction ls with
  | nil => intro ts flag _; rfl
  | cons l rest ih =>
    intro ts flag hb
    rw [blocksStep]
    simp only [if_pos (hb l (List.mem_cons_self l rest)), if_pos rfl]
    exact ih ts flag (fun x hx => hb x (List.mem_cons_of_mem l hx))

/-- C6: a maximal blank-free run of lines forms one block, classified as a
trailer block exactly when every line is a valid trailer or an indented
continuation with a previously collected trailer (the scan condition), and
kept — trimmed — as a text block otherwise; all-blank input yields no block;
and the S5 body yields the trailer block `Foo-bar=bar`, the text block of
the two `Space…`/`These…` lines (the first of which is trailer-shaped but is
downgraded together with its block), and the trailer block
`Signed-off-by=Spock`, `Multi-line-trailer="multi  line  content"` with the
continuation lines folded in. -/
theorem c6_block_classification :
    (∀ ls : List (List Char), ls ≠ [] → (∀ l ∈ ls, trimRightL l ≠ []) →
      ((trailerBlockScan false ls = true →
         ∃ ts, blocksOf ls = [Block.trailer ts]) ∧
       (trailerBlockScan false ls = false →
         blocksOf ls = [Block.text (ls.map trimRightL)]))) ∧
    (∀ ls : List (List Char), (∀ l ∈ ls, trimRightL l = []) → blocksOf ls = []) ∧
    blocksOf s5Body =
      [Block.trailer [⟨"Foo-bar".data, TrailerValue.str "bar".data⟩,],
       Block.text ["Space: the final frontier.".data,
                   "These are the voyages...".data],
       Block.trailer [⟨"Signed-off-by".data, TrailerValue.str "Spock".data⟩,
                      ⟨"Multi-line-trailer".data,
                       TrailerValue.str "multi  line  content".data⟩]] := by
  refine ⟨?_, ?_, by decide⟩
  · intro ls hne hnb
    obtain ⟨ts', hres⟩ := blocksStep_flag_true ls [] [] hnb
    have hmap : ls.map trimRightL ≠ [] := by
      simpa using hne
    have hout : ∀ b rest, blocksNext ls = some (b, rest) →
        blocksOf ls = b :: blocksAux ls.length rest := by
      intro b rest hbn
      rw [blocksOf, blocksAux, hbn]
    constructor
    · intro hscan
      refine ⟨ts', ?_⟩
      have hbn : blocksNext ls = some (Block.trailer ts', []) := by
        rw [blocksNext, hres]
        simp [hmap, hscan]
      rw [hout _ _ hbn, blocksAux_nil]
    · intro hscan
      have hbn : blocksNext ls = some (Block.text (ls.map trimRightL), []) := by
        rw [blocksNext, hres]
        simp [hmap, hscan]
      rw [hout _ _ hbn, blocksAux_nil]
  · intro ls hb
    rw [blocksOf, blocksAux, blocksNext, blocksStep_all_blank ls [] true hb]
    simp

/-- Witness for C6: a block whose second line is plain text is classified as
text even though its first line is trailer-shaped. -/
theorem c6_block_classification_witness :
    blocksOf ["Foo: a".data, "just some text".data] =
      [Block.text ["Foo: a".data, "just some text".data]] := by
  have := (c6_block_classification.1 ["Foo: a".data, "just some text".data]
    (by decide) (by decide)).2 (by decide)
  simpa using this

/-! ## C5 — the trailer line parser -/

theorem takeWhile_append_sat {p : Char → Bool} :
    ∀ (k : List Char) (d : Char) (r : List Char),
      (∀ c ∈ k, p c = true) → p d = false →
      (k ++ d :: r).takeWhile p = k := by
  intro k d r hk hd
  induction k with
  | nil => simp [List.takeWhile_cons, hd]
  | cons c k' ih =>
    rw [List.cons_append, List.takeWhile_cons, hk c (List.mem_cons_self c k')]
    simp [ih (fun x hx => hk x (List.mem_cons_of_mem c hx))]

/-- Decomposition of a list at the end of its maximal `p`-prefix. -/
theorem takeWhile_self_decomp (p : Char → Bool) (s : List Char) :
    s = s.takeWhile p ++ s.drop (s.takeWhile p).length := by
  obtain ⟨t, ht⟩ := List.takeWhile_prefix (l := s) p
  have hd := List.drop_left (s.takeWhile p) t
  rw [ht] at hd
  rw [hd, ht]

/-- On a line without the key-delimiter shape, `Trailer::from_str` reports a
format error carrying the line. -/
theorem from_str_error_of_no_shape (s : List Char)
    (hno : ¬ ∃ k d r, s = k ++ d :: r ∧ k ≠ [] ∧
      (∀ c ∈ k, isKeyChar c = true) ∧ (d = ':' ∨ d = '=')) :
    Trailer.from_str s = Except.error s := by
  rw [Trailer.from_str]
  split
  next d v heq =>
    rw [if_neg]
    intro hcond
    refine hno ⟨s.takeWhile isKeyChar, d, v, ?_, hcond.1,
      fun c hc => List.mem_takeWhile_imp hc, hcond.2.1⟩
    have hsd := takeWhile_self_decomp isKeyChar s
    rw [heq] at hsd
    exact hsd
  next => rfl

/-- On a line of the key-delimiter shape (with a newline-free remainder),
`Trailer::from_str` returns the key and the trimmed remainder as value. -/
theorem from_str_of_shape (k : List Char) (d : Char) (r : List Char)
    (hk : k ≠ []) (hkey : ∀ c ∈ k, isKeyChar c = true)
    (hd : d = ':' ∨ d = '=') (hnr : '\n' ∉ r) :
    Trailer.from_str (k ++ d :: r) =
      Except.ok ⟨k, TrailerValue.from_slice (trimBothL r)⟩ := by
  have hdp : isKeyChar d = false := by rcases hd with rfl | rfl <;> rfl
  have htw := takeWhile_append_sat k d r hkey hdp
  have hnr' : ¬ r.contains '\n' = true := by simp [hnr]
  rw [Trailer.from_str]
  simp only [htw, List.drop_left]
  rw [if_pos ⟨hk, hd, hnr'⟩]
  rfl

/-- C5: parsing a (right-trimmed, newline-free) line succeeds exactly when
the line is one or more `[A-Za-z0-9-]` characters followed by `:` or `=`
followed by the rest of the line; on success the key is that prefix and the
value is the whitespace-trimmed remainder, an integer trailer exactly when
the trimmed remainder parses as a signed 64-bit integer; on any other line
the parser returns `TrailerFormatError` carrying the original line (and, the
parser being a total function of the line, it never panics). -/
theorem c5_trailer_from_str :
    (∀ s : List Char, '\n' ∉ s →
      (((∃ k d r, s = k ++ d :: r ∧ k ≠ [] ∧ (∀ c ∈ k, isKeyChar c = true) ∧
          (d = ':' ∨ d = '=')) ↔ (Trailer.from_str s).isOk = true) ∧
       (∀ k d r, s = k ++ d :: r → k ≠ [] → (∀ c ∈ k, isKeyChar c = true) →
          (d = ':' ∨ d = '=') →
          Trailer.from_str s =
            Except.ok ⟨k, TrailerValue.from_slice (trimBothL r)⟩) ∧
       ((¬ ∃ k d r, s = k ++ d :: r ∧ k ≠ [] ∧ (∀ c ∈ k, isKeyChar c = true) ∧
          (d = ':' ∨ d = '=')) → Trailer.from_str s = Except.error s))) ∧
    (∀ v : List Char,
      (∃ i, TrailerValue.from_slice v = TrailerValue.int i) ↔
        (parseI64 v).isSome = true) := by
  have value_case :
      ∀ (s : List Char), '\n' ∉ s →
        ∀ k d r, s = k ++ d :: r → k ≠ [] → (∀ c ∈ k, isKeyChar c = true) →
          (d = ':' ∨ d = '=') →
          Trailer.from_str s =
            Except.ok ⟨k, TrailerValue.from_slice (trimBothL r)⟩ := by
    intro s hnl k d r hs hk hkey hd
    subst hs
    have hnr : '\n' ∉ r := by
      simp only [List.mem_append, List.mem_cons, not_or] at hnl
      exact hnl.2.2
    exact from_str_of_shape k d r hk hkey hd hnr
  refine ⟨fun s hnl => ⟨⟨?_, ?_⟩, value_case s hnl,
    from_str_error_of_no_shape s⟩, fun v => ?_⟩
  · rintro ⟨k, d, r, hs, hk, hkey, hd⟩
    rw [value_case s hnl k d r hs hk hkey hd]
    rfl
  · intro hok
    by_contra hno
    rw [from_str_error_of_no_shape s hno] at hok
    simp [Except.isOk, Except.toBool] at hok
  · rw [TrailerValue.from_slice]
    cases parseI64 v <;> simp

/-- Witness for C5: the S4 line with an all-digit value parses to an integer
trailer. -/
theorem c5_trailer_from_str_witness :
    Trailer.from_str "Foo-bar: 123".data =
      Except.ok ⟨"Foo-bar".data, TrailerValue.from_slice (trimBothL " 123".data)⟩ :=
  ((c5_trailer_from_str.1 "Foo-bar: 123".data (by decide)).2.1
    "Foo-bar".data ':' " 123".data (by decide) (by decide) (by decide)
    (Or.inl rfl))

/-! ## C7 — round-trip of display and parse -/

theorem trimBothL_cons_space (l : List Char) :
    trimBothL (' ' :: l) = trimBothL l := by
  rw [trimBothL, trimBothL, trimLeftL, trimLeftL, List.dropWhile_cons]
  simp [isWsChar]

/-- C7, counterexample.  Two trailers whose keys match `[A-Za-z0-9-]+` and
whose values contain no newline fail the round trip: a string value `"123"`
(such values arise from `TrailerValue::append`) re-parses as the integer
`123`, and a string value `" x "` with surrounding whitespace re-parses
trimmed. -/
theorem c7_counterexample :
    Trailer.from_str (Trailer.display ⟨"A".data, TrailerValue.str "123".data⟩) =
      Except.ok ⟨"A".data, TrailerValue.int 123⟩ ∧
    (⟨"A".data, TrailerValue.int 123⟩ : Trailer) ≠
      ⟨"A".data, TrailerValue.str "123".data⟩ ∧
    Trailer.from_str (Trailer.display ⟨"A".data, TrailerValue.str " x ".data⟩) =
      Except.ok ⟨"A".data, TrailerValue.str "x".data⟩ ∧
    (⟨"A".data, TrailerValue.str "x".data⟩ : Trailer) ≠
      ⟨"A".data, TrailerValue.str " x ".data⟩ := by
  refine ⟨by decide, by decide, by decide, by decide⟩

/-- C7, amended: `parse(format(t)) = t` for every trailer `t` whose key
matches `[A-Za-z0-9-]+` and whose rendered value contains no newline,
carries no leading or trailing whitespace, and re-parses to the same value
under `TrailerValue::from_slice` (in particular, a string value must not
itself parse as a signed 64-bit integer). -/
theorem c7_roundtrip_amended :
    ∀ t : Trailer, t.key ≠ [] → (∀ c ∈ t.key, isKeyChar c = true) →
      '\n' ∉ t.value.render →
      trimBothL t.value.render = t.value.render →
      TrailerValue.from_slice t.value.render = t.value →
      Trailer.from_str (Trailer.display t) = Except.ok t := by
  intro t hk hkey hnl htrim hslice
  rw [Trailer.display]
  rw [from_str_of_shape t.key ':' (' ' :: t.value.render) hk hkey
    (Or.inl rfl) (by simp [hnl])]
  rw [trimBothL_cons_space, htrim, hslice]

/-- Witness for C7's amended theorem: an integer trailer (whose rendering
`5` trivially re-parses to itself) round-trips. -/
theorem c7_roundtrip_amended_witness :
    Trailer.from_str (Trailer.display ⟨"A".data, TrailerValue.int 5⟩) =
      Except.ok ⟨"A".data, TrailerValue.int 5⟩ :=
  c7_roundtrip_amended ⟨"A".data, TrailerValue.int 5⟩
    (by decide) (by decide) (by decide) (by decide) (by decide)

/-! ## C4 — ref-name classification -/

theorem reverse_eq_cons_cons (segs : List (List Char)) (a b : List Char)
    (rem : List (List Char)) :
    segs.reverse = a :: b :: rem ↔ segs = rem.reverse ++ [b, a] := by
  constructor
  · intro h
    have h2 := congrArg List.reverse h
    simpa using h2
  · intro h
    subst h
    simp

/-- Classification as a head ref, on the reversed segment list. -/
theorem of_ref_parts_head_rev (segs : List (List Char)) (id : List Char) :
    of_ref_parts segs = some (id, IssueRefType.head) ↔
      ∃ idStr remaining, segs.reverse = "head".data :: idStr :: remaining ∧
        id_from_str idStr = some id ∧ "dit".data ∈ remaining := by
  constructor
  · intro h
    rcases hrs : segs.reverse with _ | ⟨last, rest⟩
    · simp [of_ref_parts, hrs] at h
    simp only [of_ref_parts, hrs] at h
    by_cases hlast : last = "head".data
    · rw [if_pos hlast] at h
      rcases rest with _ | ⟨idStr, remaining⟩
      · simp [of_ref_finish] at h
      rcases hid : id_from_str idStr with _ | i
      · simp [of_ref_finish, hid] at h
      simp only [of_ref_finish, hid] at h
      by_cases hdit : remaining.contains "dit".data
      · rw [if_pos hdit] at h
        have hi : i = id := by simpa using h
        exact ⟨idStr, remaining, by rw [hlast], by rw [hid, hi],
          by simpa using hdit⟩
      · rw [if_neg hdit] at h
        exact Option.noConfusion h
    · rw [if_neg hlast] at h
      rcases hid : id_from_str last with _ | i
      · simp [hid] at h
      simp only [hid] at h
      rcases rest with _ | ⟨l2, rest2⟩
      · simp at h
      by_cases hl2 : l2 = "leaves".data
      · simp only [if_pos hl2] at h
        rcases rest2 with _ | ⟨issueStr, remaining⟩
        · simp [of_ref_finish] at h
        rcases hid2 : id_from_str issueStr with _ | i2
        · simp [of_ref_finish, hid2] at h
        simp only [of_ref_finish, hid2] at h
        by_cases hdit : remaining.contains "dit".data
        · rw [if_pos hdit] at h
          simp at h
        · rw [if_neg hdit] at h
          exact Option.noConfusion h
      · simp only [if_neg hl2] at h
        exact Option.noConfusion h
  · rintro ⟨idStr, remaining, hrs, hid, hdit⟩
    simp [of_ref_parts, hrs, of_ref_finish, hid, hdit]

/-- Classification as a leaf ref, on the reversed segment list. -/
theorem of_ref_parts_leaf_rev (segs : List (List Char)) (id : List Char) :
    of_ref_parts segs = some (id, IssueRefType.leaf) ↔
      ∃ msgStr issueStr remaining,
        segs.reverse = msgStr :: "leaves".data :: issueStr :: remaining ∧
        (id_from_str msgStr).isSome = true ∧
        id_from_str issueStr = some id ∧ "dit".data ∈ remaining := by
  constructor
  · intro h
    rcases hrs : segs.reverse with _ | ⟨last, rest⟩
    · simp [of_ref_parts, hrs] at h
    simp only [of_ref_parts, hrs] at h
    by_cases hlast : last = "head".data
    · rw [if_pos hlast] at h
      rcases rest with _ | ⟨idStr, remaining⟩
      · simp [of_ref_finish] at h
      rcases hid : id_from_str idStr with _ | i
      · simp [of_ref_finish, hid] at h
      simp only [of_ref_finish, hid] at h
      by_cases hdit : remaining.contains "dit".data
      · rw [if_pos hdit] at h
        simp at h
      · rw [if_neg hdit] at h
        exact Option.noConfusion h
    · rw [if_neg hlast] at h
      rcases hid : id_from_str last with _ | i
      · simp [hid] at h
      simp only [hid] at h
      rcases rest with _ | ⟨l2, rest2⟩
      · simp at h
      by_cases hl2 : l2 = "leaves".data
      · simp only [if_pos hl2] at h
        rcases rest2 with _ | ⟨issueStr, remaining⟩
        · simp [of_ref_finish] at h
        rcases hid2 : id_from_str issueStr with _ | i2
        · simp [of_ref_finish, hid2] at h
        simp only [of_ref_finish, hid2] at h
        by_cases hdit : remaining.contains "dit".data
        · rw [if_pos hdit] at h
          have hi : i2 = id := by simpa using h
          exact ⟨last, issueStr, remaining, by rw [hl2], by rw [hid]; rfl,
            by rw [hid2, hi], by simpa using hdit⟩
        · rw [if_neg hdit] at h
          exact Option.noConfusion h
      · simp only [if_neg hl2] at h
        exact Option.noConfusion h
  · rintro ⟨msgStr, issueStr, remaining, hrs, hmsg, hid, hdit⟩
    rcases hm : id_from_str msgStr with _ | i
    · rw [hm] at hmsg
      exact absurd hmsg (by simp)
    have hne : ¬ msgStr = "head".data := by
      intro hcon
      rw [hcon] at hm
      exact Option.noConfusion ((by decide : id_from_str "head".data = none) ▸ hm)
    simp [of_ref_parts, hrs, hne, hm, of_ref_finish, hid, hdit]

/-- C4: a ref name classifies as `(issue_id, Head)` exactly when its
trailing segment is `head`, preceded by a valid 40-hex id, with a literal
`dit` segment somewhere before; as `(issue_id, Leaf)` exactly when its
trailing segment is a 40-hex id preceded by `leaves` preceded by a valid
40-hex issue id, with a `dit` segment somewhere before; and as `None`
otherwise — witnessed on the claim's five concrete ref names. -/
theorem c4_ref_classification :
    (∀ (segs : List (List Char)) (id : List Char),
      (of_ref_parts segs = some (id, IssueRefType.head) ↔
        ∃ front idStr, segs = front ++ [idStr, "head".data] ∧
          id_from_str idStr = some id ∧ "dit".data ∈ front) ∧
      (of_ref_parts segs = some (id, IssueRefType.leaf) ↔
        ∃ front issueStr msgStr,
          segs = front ++ [issueStr, "leaves".data, msgStr] ∧
          id_from_str issueStr = some id ∧
          (id_from_str msgStr).isSome = true ∧ "dit".data ∈ front)) ∧
    of_ref "refs/dit/65b56706fdc3501749d008750c61a1f24b888f72/head".data =
      some ("65b56706fdc3501749d008750c61a1f24b888f72".data, IssueRefType.head) ∧
    of_ref ("refs/dit/65b56706fdc3501749d008750c61a1f24b888f72/leaves/" ++
        "f6bd121bdc2ba5906e412da19191a2eaf2025755").data =
      some ("65b56706fdc3501749d008750c61a1f24b888f72".data, IssueRefType.leaf) ∧
    of_ref ("refs/dit/65b56706fdc3501749d008750c61a1f24b888f72/foo/" ++
        "f6bd121bdc2ba5906e412da19191a2eaf2025755").data = none ∧
    of_ref "refs/dit/foo/head".data = none ∧
    of_ref "refs/foo/65b56706fdc3501749d008750c61a1f24b888f72/head".data =
      none := by
  refine ⟨fun segs id => ⟨?_, ?_⟩, by decide, by decide, by decide, by decide,
    by decide⟩
  · rw [of_ref_parts_head_rev]
    constructor
    · rintro ⟨idStr, remaining, hrs, hid, hdit⟩
      rw [reverse_eq_cons_cons] at hrs
      exact ⟨remaining.reverse, idStr, hrs, hid, by simpa using hdit⟩
    · rintro ⟨front, idStr, hseg, hid, hdit⟩
      refine ⟨idStr, front.reverse, ?_, hid, by simpa using hdit⟩
      rw [reverse_eq_cons_cons]
      simpa using hseg
  · rw [of_ref_parts_leaf_rev]
    constructor
    · rintro ⟨msgStr, issueStr, remaining, hrs, hmsg, hid, hdit⟩
      have h2 := congrArg List.reverse hrs
      simp only [List.reverse_reverse, List.reverse_cons, List.append_assoc] at h2
      refine ⟨remaining.reverse, issueStr, msgStr, ?_, hid, hmsg,
        by simpa using hdit⟩
      simpa using h2
    · rintro ⟨front, issueStr, msgStr, hseg, hid, hmsg, hdit⟩
      refine ⟨msgStr, issueStr, front.reverse, ?_, hmsg, hid,
        by simpa using hdit⟩
      rw [hseg]
      simp

/-- Witness for C4: the head-classification equivalence applied to
`refs/dit/<40-hex>/head`. -/
theorem c4_ref_classification_witness :
    of_ref_parts (splitOnChar '/'
        "refs/dit/65b56706fdc3501749d008750c61a1f24b888f72/head".data) =
      some ("65b56706fdc3501749d008750c61a1f24b888f72".data, IssueRefType.head) :=
  ((c4_ref_classification.1 (splitOnChar '/'
      "refs/dit/65b56706fdc3501749d008750c61a1f24b888f72/head".data)
      "65b56706fdc3501749d008750c61a1f24b888f72".data).1).2
    ⟨["refs".data, "dit".data],
     "65b56706fdc3501749d008750c61a1f24b888f72".data,
     by decide, by decide, by decide⟩

/-! ## C8 — remote priorization -/

theorem fold_min_some {α : Type} :
    ∀ (l : List (α × Nat)) (a : α × Nat),
      ∃ y, l.foldl selectMinStep (some a) = some y ∧ (y ∈ l ∨ y = a) ∧
        (∀ x ∈ l, y.2 ≤ x.2) ∧ y.2 ≤ a.2 := by
  intro l
  induction l with
  | nil =>
    intro a
    exact ⟨a, rfl, Or.inr rfl, by simp, Nat.le_refl _⟩
  | cons b l' ih =>
    intro a
    by_cases hba : b.2 < a.2
    · obtain ⟨y, hy, hmem, hall, hya⟩ := ih b
      refine ⟨y, ?_, ?_, ?_, Nat.le_of_lt (Nat.lt_of_le_of_lt hya hba)⟩
      · simpa [selectMinStep, hba] using hy
      · rcases hmem with h | h
        · exact Or.inl (List.mem_cons_of_mem b h)
        · exact Or.inl (h ▸ List.mem_cons_self b l')
      · intro x hx
        rcases List.mem_cons.mp hx with rfl | hx'
        · exact hya
        · exact hall x hx'
    · obtain ⟨y, hy, hmem, hall, hya⟩ := ih a
      refine ⟨y, ?_, ?_, ?_, hya⟩
      · simpa [selectMinStep, hba] using hy
      · rcases hmem with h | h
        · exact Or.inl (List.mem_cons_of_mem b h)
        · exact Or.inr h
      · intro x hx
        rcases List.mem_cons.mp hx with rfl | hx'
        · exact Nat.le_trans hya (Nat.le_of_not_lt hba)
        · exact hall x hx'

/-- The prioritized-pairs list of `select_ref` records true priorities. -/
theorem mem_prioritized (p : RemotePriorization) (refs : List CliRef)
    (y : CliRef × Nat)
    (hmem : y ∈ refs.filterMap
      (fun r => (p.priority_for_ref r).map (fun q => (r, q)))) :
    y.1 ∈ refs ∧ p.priority_for_ref y.1 = some y.2 := by
  obtain ⟨a, ha, hfa⟩ := List.mem_filterMap.mp hmem
  cases hp : p.priority_for_ref a with
  | none => rw [hp] at hfa; exact absurd hfa (by simp)
  | some q =>
    rw [hp] at hfa
    simp only [Option.map_some', Option.some.injEq] at hfa
    rw [← hfa]
    exact ⟨ha, hp⟩

/-- C8: selecting among a set of refs picks one whose priority is minimal,
where a priority-list entry `*` gives every remote a priority, a local ref
(not under `refs/remotes/…`) has priority 0, every remote ref has priority
at least 1 — so whenever a local ref is present, a local ref is selected,
and among remote refs the one whose remote name (or `*`) appears earliest in
the comma-separated list wins. -/
theorem c8_remote_priorization :
    ∀ (p : RemotePriorization) (refs : List CliRef),
      (∀ r ∈ refs, ∀ pr, p.priority_for_ref r = some pr →
        ∃ s ps, select_ref refs p = some s ∧
          p.priority_for_ref s = some ps ∧ ps ≤ pr) ∧
      (∀ name : List Char, "*".data ∈ p.list →
        (p.priority_for_remote name).isSome = true) ∧
      (∀ r : CliRef, r.remote = none → p.priority_for_ref r = some 0) ∧
      (∀ (r : CliRef) (rn : List Char), r.remote = some rn → ∀ pr,
        p.priority_for_ref r = some pr → 1 ≤ pr) ∧
      (∀ r ∈ refs, r.remote = none →
        ∃ s, select_ref refs p = some s ∧ s.remote = none) := by
  intro p refs
  have hmin : ∀ r ∈ refs, ∀ pr, p.priority_for_ref r = some pr →
      ∃ s ps, select_ref refs p = some s ∧
        p.priority_for_ref s = some ps ∧ ps ≤ pr := by
    intro r hr pr hpr
    have hmem : (r, pr) ∈ refs.filterMap
        (fun r => (p.priority_for_ref r).map (fun q => (r, q))) :=
      List.mem_filterMap.mpr ⟨r, hr, by rw [hpr]; rfl⟩
    rcases hl : refs.filterMap
        (fun r => (p.priority_for_ref r).map (fun q => (r, q))) with _ | ⟨b, l'⟩
    · rw [hl] at hmem
      exact absurd hmem (by simp)
    obtain ⟨y, hy, hymem, hall, hyb⟩ := fold_min_some l' b
    have hy' : select_ref refs p = some y.1 := by
      rw [select_ref, hl]
      simp only [List.foldl_cons, selectMinStep, hy, Option.map_some']
    have hymem' : y ∈ refs.filterMap
        (fun r => (p.priority_for_ref r).map (fun q => (r, q))) := by
      rw [hl]
      rcases hymem with h | h
      · exact List.mem_cons_of_mem b h
      · exact h ▸ List.mem_cons_self b l'
    obtain ⟨-, hyp⟩ := mem_prioritized p refs y hymem'
    refine ⟨y.1, y.2, hy', hyp, ?_⟩
    rw [hl] at hmem
    rcases List.mem_cons.mp hmem with h | h
    · rw [← h] at hyb
      exact hyb
    · exact hall _ h
  have hlocal : ∀ r : CliRef, r.remote = none → p.priority_for_ref r = some 0 := by
    intro r h
    simp [RemotePriorization.priority_for_ref, h]
  have hremote : ∀ (r : CliRef) (rn : List Char), r.remote = some rn → ∀ pr,
      p.priority_for_ref r = some pr → 1 ≤ pr := by
    intro r rn hrn pr hpr
    simp only [RemotePriorization.priority_for_ref, hrn,
      RemotePriorization.priority_for_remote] at hpr
    cases hf : p.list.findIdx? (fun item => item = rn || item = "*".data) with
    | none => rw [hf] at hpr; exact absurd hpr (by simp)
    | some k =>
      rw [hf] at hpr
      simp only [Option.map_some', Option.some.injEq] at hpr
      omega
  refine ⟨hmin, ?_, hlocal, hremote, ?_⟩
  · intro name hstar
    rw [RemotePriorization.priority_for_remote]
    have : (p.list.findIdx? (fun item => item = name || item = "*".data)).isSome :=
      by
      rw [List.findIdx?_isSome, List.any_eq_true]
      exact ⟨"*".data, hstar, by simp⟩
    simp [this]
  · intro r hr hloc
    obtain ⟨s, ps, hsel, hsp, hle⟩ := hmin r hr 0 (hlocal r hloc)
    refine ⟨s, hsel, ?_⟩
    cases hrem : s.remote with
    | none => rfl
    | some rn =>
      have h1 := hremote s rn hrem ps hsp
      omega

/-- Witness for C8: with priority list `upstream,origin,*`, the upstream
head is selected over the origin head. -/
theorem c8_remote_priorization_witness :
    ∃ s ps,
      select_ref
        [⟨"refs/remotes/origin/dit/x/head".data⟩,
         ⟨"refs/remotes/upstream/dit/x/head".data⟩]
        (RemotePriorization.from_str "upstream,origin,*".data) = some s ∧
      (RemotePriorization.from_str "upstream,origin,*".data).priority_for_ref
          s = some ps ∧ ps ≤ 2 :=
  (c8_remote_priorization
      (RemotePriorization.from_str "upstream,origin,*".data)
      [⟨"refs/remotes/origin/dit/x/head".data⟩,
       ⟨"refs/remotes/upstream/dit/x/head".data⟩]).1
    ⟨"refs/remotes/origin/dit/x/head".data⟩ (by decide) 2 (by decide)

/-! ## C2 — the bounded, ordered message walk -/

theorem mem_insertByDepth (repo : Repo) (c a : Nat) :
    ∀ l, a ∈ insertByDepth repo c l ↔ a = c ∨ a ∈ l := by
  intro l
  induction l with
  | nil => simp [insertByDepth]
  | cons x xs ih =>
    rw [insertByDepth]
    by_cases h : fpDepth repo x ≤ fpDepth repo c
    · simp [h]
    · simp only [h, if_false, List.mem_cons, ih]
      tauto

theorem mem_sortByDepthDesc (repo : Repo) (l : List Nat) (a : Nat) :
    a ∈ sortByDepthDesc repo l ↔ a ∈ l := by
  induction l with
  | nil => simp [sortByDepthDesc]
  | cons x xs ih =>
    rw [sortByDepthDesc, List.foldr_cons, mem_insertByDepth]
    rw [sortByDepthDesc] at ih
    rw [ih]
    simp

theorem pairwise_insertByDepth (repo : Repo) (c : Nat) :
    ∀ l, List.Pairwise (fun a b => fpDepth repo b ≤ fpDepth repo a) l →
      List.Pairwise (fun a b => fpDepth repo b ≤ fpDepth repo a)
        (insertByDepth repo c l) := by
  intro l
  induction l with
  | nil => simp [insertByDepth]
  | cons x xs ih =>
    intro hl
    rcases List.pairwise_cons.mp hl with ⟨hx, hxs⟩
    rw [insertByDepth]
    by_cases h : fpDepth repo x ≤ fpDepth repo c
    · rw [if_pos h]
      refine List.pairwise_cons.mpr ⟨?_, hl⟩
      intro b hb
      rcases List.mem_cons.mp hb with rfl | hb'
      · exact h
      · exact Nat.le_trans (hx b hb') h
    · rw [if_neg h]
      refine List.pairwise_cons.mpr ⟨?_, ih hxs⟩
      intro b hb
      rcases (mem_insertByDepth repo c b xs).mp hb with rfl | hb'
      · exact Nat.le_of_lt (Nat.lt_of_not_le h)
      · exact hx b hb'

theorem pairwise_sortByDepthDesc (repo : Repo) (l : List Nat) :
    List.Pairwise (fun a b => fpDepth repo b ≤ fpDepth repo a)
      (sortByDepthDesc repo l) := by
  induction l with
  | nil => simp [sortByDepthDesc]
  | cons x xs ih =>
    rw [sortByDepthDesc, List.foldr_cons]
    exact pairwise_insertByDepth repo x _ ih

theorem fpChainAux_length_le (repo : Repo) :
    ∀ (n c : Nat), (fpChainAux repo n c).length ≤ n := by
  intro n
  induction n with
  | zero => intro c; simp [fpChainAux]
  | succ k ih =>
    intro c
    rw [fpChainAux]
    cases hp : firstParentOf repo c with
    | none => simp
    | some p =>
      simp only [hp, List.length_cons]
      exact Nat.succ_le_succ (ih p)

/-- A first-parent chain that did not use up its fuel is final: more fuel
does not change it. -/
theorem fpChainAux_stable (repo : Repo) :
    ∀ (n c : Nat), (fpChainAux repo n c).length < n →
      ∀ m, n ≤ m → fpChainAux repo m c = fpChainAux repo n c := by
  intro n
  induction n with
  | zero => intro c h; exact absurd h (Nat.not_lt_zero _)
  | succ k ih =>
    intro c h m hm
    obtain ⟨m', rfl⟩ : ∃ m', m = m' + 1 := ⟨m - 1, by omega⟩
    have hm' : k ≤ m' := by omega
    rw [fpChainAux, fpChainAux]
    cases hp : firstParentOf repo c with
    | none => simp [hp]
    | some p =>
      simp only [hp]
      have hlen : (fpChainAux repo k p).length < k := by
        rw [fpChainAux] at h
        simp only [hp, List.length_cons] at h
        omega
      rw [ih p hlen m' hm']

theorem mem_keys_of_assocLookup_some {α β : Type} [DecidableEq α] :
    ∀ (l : List (α × β)) (k : α) (v : β), assocLookup l k = some v →
      k ∈ l.map Prod.fst := by
  intro l
  induction l with
  | nil => intro k v h; exact absurd h (by simp [assocLookup])
  | cons p rest ih =>
    intro k v h
    rw [assocLookup] at h
    by_cases hk : k = p.1
    · simp [hk]
    · rw [if_neg hk] at h
      exact List.mem_cons_of_mem _ (ih k v h)

/-- A commit with a first parent is a stored commit. -/
theorem key_of_firstParent_some (repo : Repo) (c p : Nat)
    (hp : firstParentOf repo c = some p) :
    c ∈ repo.commits.map Prod.fst := by
  rw [firstParentOf, Repo.parentsOf] at hp
  cases hl : assocLookup repo.commits c with
  | none => rw [hl] at hp; exact absurd hp (by simp)
  | some ps => exact mem_keys_of_assocLookup_some _ _ _ hl

/-- Every element of a first-parent chain except the last has a first
parent, hence is a stored commit. -/
theorem chain_dropLast_keys (repo : Repo) :
    ∀ (n c : Nat), ∀ x ∈ (fpChainAux repo n c).dropLast,
      x ∈ repo.commits.map Prod.fst := by
  intro n
  induction n with
  | zero => intro c x hx; simp [fpChainAux] at hx
  | succ k ih =>
    intro c x hx
    rw [fpChainAux] at hx
    cases hp : firstParentOf repo c with
    | none => simp [hp] at hx
    | some p =>
      simp only [hp] at hx
      cases hl : fpChainAux repo k p with
      | nil => rw [hl] at hx; simp at hx
      | cons q qs =>
        rw [hl, List.dropLast_cons₂] at hx
        rcases List.mem_cons.mp hx with rfl | hx'
        · exact key_of_firstParent_some repo x p hp
        · refine ih p x ?_
          rw [hl]
          exact hx'

theorem nodup_subset_length_le {α : Type} [DecidableEq α] (l l' : List α)
    (hn : l.Nodup) (hs : ∀ x ∈ l, x ∈ l') : l.length ≤ l'.length := by
  calc l.length = l.toFinset.card := (List.toFinset_card_of_nodup hn).symm
  _ ≤ l'.toFinset.card := Finset.card_le_card
      (fun x hx => List.mem_toFinset.mpr (hs x (List.mem_toFinset.mp hx)))
  _ ≤ l'.length := l'.toFinset_card_le

/-- A duplicate-free first-parent chain never exhausts its fuel: all its
elements but the last are distinct stored commits. -/
theorem fpChain_untruncated (repo : Repo) (c : Nat)
    (hnd : (fpChain repo c).Nodup) :
    (fpChain repo c).length < repo.commits.length + 2 := by
  by_contra hlong
  have hle := fpChainAux_length_le repo (repo.commits.length + 2) c
  have heq : (fpChain repo c).length = repo.commits.length + 2 := by
    rw [fpChain] at hlong ⊢
    omega
  have hnd' := (List.dropLast_sublist (fpChain repo c)).nodup hnd
  have hlen := nodup_subset_length_le _ _ hnd'
    (chain_dropLast_keys repo (repo.commits.length + 2) c)
  rw [List.length_dropLast, heq, List.length_map] at hlen
  omega

/-- Moving to the first parent strictly decreases the first-parent depth,
as long as the chain below the commit is acyclic. -/
theorem fpDepth_lt_of_firstParent (repo : Repo) (c p : Nat)
    (hnd : (fpChain repo c).Nodup) (hp : firstParentOf repo c = some p) :
    fpDepth repo p < fpDepth repo c := by
  have hopen : fpChain repo c =
      c :: fpChainAux repo (repo.commits.length + 1) p := by
    rw [fpChain, fpChainAux]
    simp [hp]
  have hlt := fpChain_untruncated repo c hnd
  have hlen1 : (fpChainAux repo (repo.commits.length + 1) p).length <
      repo.commits.length + 1 := by
    rw [hopen, List.length_cons] at hlt
    omega
  have hstab := fpChainAux_stable repo (repo.commits.length + 1) p hlen1
    (repo.commits.length + 2) (by omega)
  rw [fpDepth, fpDepth, fpChain, hstab, hopen, List.length_cons]
  omega

/-- C2: the message walk of an issue — seeded with every ref under the
issue's namespace, its initial message's parents hidden, first-parent
simplified and topologically sorted — never yields a parent of the initial
message; yields only commits first-parent reachable from the issue's refs;
yields them children-first (in order of non-increasing first-parent depth,
so that a message never appears after its first parent when that parent's
chain is acyclic); and on scenario S2 yields exactly `[a]` for issue A and
`[b1, b]` for issue B, neither walk yielding a commit of the other issue. -/
theorem c2_messages_bounded_walk :
    (∀ (repo : Repo) (issue : Nat) (ps : List Nat) (out : List Nat),
      assocLookup repo.commits issue = some ps →
      messagesList repo issue = Except.ok out →
      ∀ p ∈ ps, p ∉ out) ∧
    (∀ (repo : Repo) (issue : Nat) (out : List Nat),
      messagesList repo issue = Except.ok out →
      ∀ c ∈ out, c ∈ fpReachable repo (issueRefTargets repo issue)) ∧
    (∀ (repo : Repo) (issue : Nat) (out : List Nat),
      messagesList repo issue = Except.ok out →
      List.Pairwise (fun a b => fpDepth repo b ≤ fpDepth repo a) out) ∧
    (∀ (repo : Repo) (issue : Nat) (out : List Nat),
      messagesList repo issue = Except.ok out →
      ∀ c p : Nat, firstParentOf repo c = some p →
        (fpChain repo c).Nodup →
        ∀ ic ip : Fin out.length, out.get ic = c → out.get ip = p →
          (ic : Nat) ≤ (ip : Nat)) ∧
    messagesList s2Repo 0 = Except.ok [0] ∧
    messagesList s2Repo 1 = Except.ok [2, 1] := by
  have hshape : ∀ (repo : Repo) (issue : Nat) (ps : List Nat) (out : List Nat),
      assocLookup repo.commits issue = some ps →
      messagesList repo issue = Except.ok out →
      out = sortByDepthDesc repo
        ((fpReachable repo (issueRefTargets repo issue)).filter
          (fun c => c ∉ reachableFrom repo ps)) := by
    intro repo issue ps out hps hout
    rw [messagesList, hps] at hout
    simpa using hout.symm
  have hpairwise : ∀ (repo : Repo) (issue : Nat) (out : List Nat),
      messagesList repo issue = Except.ok out →
      List.Pairwise (fun a b => fpDepth repo b ≤ fpDepth repo a) out := by
    intro repo issue out hout
    cases hps : assocLookup repo.commits issue with
    | none => rw [messagesList, hps] at hout; exact absurd hout (by simp)
    | some ps =>
      rw [hshape repo issue ps out hps hout]
      exact pairwise_sortByDepthDesc repo _
  refine ⟨?_, ?_, hpairwise, ?_, by decide, by decide⟩
  · intro repo issue ps out hps hout p hp hpo
    rw [hshape repo issue ps out hps hout, mem_sortByDepthDesc] at hpo
    obtain ⟨-, hfilter⟩ := List.mem_filter.mp hpo
    have hreach : p ∈ reachableFrom repo ps :=
      mem_reachAux_of_mem repo _ ps p hp
    simp [hreach] at hfilter
  · intro repo issue out hout c hc
    cases hps : assocLookup repo.commits issue with
    | none => rw [messagesList, hps] at hout; exact absurd hout (by simp)
    | some ps =>
      rw [hshape repo issue ps out hps hout, mem_sortByDepthDesc] at hc
      exact (List.mem_filter.mp hc).1
  · intro repo issue out hout c p hp hnd ic ip hic hip
    by_contra hgt
    have hlt : ip < ic := by
      rw [Fin.lt_def]
      omega
    have hord := List.pairwise_iff_get.mp (hpairwise repo issue out hout)
      ip ic hlt
    rw [hic, hip] at hord
    have hdepth := fpDepth_lt_of_firstParent repo c p hnd hp
    omega

/-- Witness for C2: in scenario S2, issue B's walk does not yield issue A's
initial message `0`, which is the hidden first parent of B's initial
message. -/
theorem c2_messages_bounded_walk_witness : (0 : Nat) ∉ ([2, 1] : List Nat) :=
  c2_messages_bounded_walk.1 s2Repo 1 [0] [2, 1] (by decide) (by decide)
    0 (by decide)

end GitDit
